import Mathlib

/-
Verification development for the poker bankroll analysis engine
(estimate.py and simulate.py).

The numeric pipeline of simulate.py is embedded parametrically over a
bundle of scalar operations (FpOps), so that the same definitions can be
read both over an ordered field (the ideal-arithmetic reading used for the
functional-correctness theorems) and over an Option-based scalar that
models the IEEE NaN propagation relevant to the error-handling claims
(NaN compares false under every comparison, and arithmetic on NaN yields
NaN).

The numpy global random state is modelled explicitly: a state is a pair
(seed, position) and the standard-normal source is an abstract stream
z : seed -> position -> value.  np.random.seed(42) replaces the ambient
state by (42, 0); np.random.normal(mu, sigma, (n, m)) reads the next n*m
stream values in row-major order, each transformed affinely to
mu + sigma * z.
-/

namespace PokerBankroll

/-- Bundle of scalar operations used by the simulate.py pipeline.  The
field instantiation (fieldOps) gives the ideal-arithmetic reading; the
nanOps instantiation models NaN propagation. -/
structure FpOps (V : Type) where
  zero : V
  add : V → V → V
  sub : V → V → V
  mul : V → V → V
  div : V → V → V
  leB : V → V → Bool
  geB : V → V → Bool
  maxF : V → V → V
  minF : V → V → V
  sqrtF : V → V
  ofNat : ℕ → V
  ofRat : ℚ → V

/-- The numpy global random-number-generator state: the active seed and
the position in the draw stream for that seed. -/
structure RngState where
  seed : ℕ
  pos : ℕ
deriving DecidableEq

/-- Model of np.random.seed: the ambient state is replaced by the given
seed at stream position 0. -/
def npRandomSeed (s : ℕ) : RngState := ⟨s, 0⟩

/-- One Normal(mu, sigma) draw, k positions ahead of the state st, from
the abstract standard-normal stream z. -/
def normalAt {V : Type} (ops : FpOps V) (z : ℕ → ℕ → V) (mu sigma : V)
    (st : RngState) (k : ℕ) : V :=
  ops.add mu (ops.mul sigma (z st.seed (st.pos + k)))

/-- Model of np.cumsum along a row: the running left-to-right sums,
starting from the accumulator acc. -/
def cumsumFrom {V : Type} (ops : FpOps V) (acc : V) : List V → List V
  | [] => []
  | x :: xs =>
    let s := ops.add acc x
    s :: cumsumFrom ops s xs

/-- np.cumsum of one row (accumulator starts at zero). -/
def cumsum {V : Type} (ops : FpOps V) (xs : List V) : List V :=
  cumsumFrom ops ops.zero xs

/-- simulate.py, simulate_bankroll_paths: reseeds the global generator
with the literal 42, draws an (n_simulations, n_hands) matrix of
Normal(mu, sigma) returns, takes cumulative sums along each row, and
column-stacks the initial bankroll in front of initial_bankroll plus the
cumulative returns.  The ambient RNG state st0 is discarded by the
reseed; the returned state is the state left by the draws. -/
def simulate_bankroll_paths {V : Type} (ops : FpOps V) (z : ℕ → ℕ → V)
    (mu sigma initial_bankroll : V) (n_hands n_simulations : ℕ)
    (st0 : RngState) : List (List V) × RngState :=
  let st := npRandomSeed 42
  let returns : List (List V) :=
    (List.range n_simulations).map (fun i =>
      (List.range n_hands).map (fun j =>
        normalAt ops z mu sigma st (i * n_hands + j)))
  let cumulative_returns := returns.map (cumsum ops)
  let bankroll_paths := cumulative_returns.map (fun cr =>
    initial_bankroll :: cr.map (fun c => ops.add initial_bankroll c))
  (bankroll_paths, ⟨st.seed, st.pos + n_simulations * n_hands⟩)

/-- np.min over one row (left fold of the binary minimum; the empty row
never occurs for arrays produced by the simulator). -/
def minList {V : Type} (ops : FpOps V) : List V → V
  | [] => ops.zero
  | x :: xs => xs.foldl ops.minF x

/-- np.max over one row. -/
def maxList {V : Type} (ops : FpOps V) : List V → V
  | [] => ops.zero
  | x :: xs => xs.foldl ops.maxF x

/-- simulate.py, calculate_risk_of_ruin: the fraction of paths whose
row-minimum is at or below the ruin threshold. -/
def calculate_risk_of_ruin {V : Type} (ops : FpOps V)
    (bankroll_paths : List (List V)) (ruin_threshold : V) : V :=
  let min_bankrolls := bankroll_paths.map (minList ops)
  let ruin_count :=
    (min_bankrolls.filter (fun m => ops.leB m ruin_threshold)).length
  ops.div (ops.ofNat ruin_count) (ops.ofNat bankroll_paths.length)

/-- np.maximum.accumulate continued from the accumulator acc. -/
def runningMaxFrom {V : Type} (ops : FpOps V) (acc : V) : List V → List V
  | [] => []
  | x :: xs =>
    let m := ops.maxF acc x
    m :: runningMaxFrom ops m xs

/-- np.maximum.accumulate over one row. -/
def runningMax {V : Type} (ops : FpOps V) : List V → List V
  | [] => []
  | x :: xs => x :: runningMaxFrom ops x xs

/-- Maximum drawdown of one path: elementwise running-max minus value,
then the row maximum. -/
def max_drawdown_of_path {V : Type} (ops : FpOps V) (p : List V) : V :=
  maxList ops (List.zipWith ops.sub (runningMax ops p) p)

/-- simulate.py, calculate_drawdown_probabilities: for each threshold,
the fraction of paths whose maximum drawdown reaches or exceeds it.  The
Python dict keyed by threshold is modelled as the list of
(threshold, probability) pairs in threshold order. -/
def calculate_drawdown_probabilities {V : Type} (ops : FpOps V)
    (bankroll_paths : List (List V)) (drawdown_thresholds : List V) :
    List (V × V) :=
  drawdown_thresholds.map (fun threshold =>
    let max_drawdowns := bankroll_paths.map (max_drawdown_of_path ops)
    let drawdown_count :=
      (max_drawdowns.filter (fun d => ops.geB d threshold)).length
    (threshold, ops.div (ops.ofNat drawdown_count)
      (ops.ofNat bankroll_paths.length)))

/-- The field instantiation of the operation bundle: plain ordered-field
arithmetic, with comparisons decided by the order and an abstract square
root sq (np.sqrt on nonnegative reals). -/
def fieldOps (α : Type) [LinearOrderedField α] (sq : α → α) : FpOps α where
  zero := 0
  add := fun a b => a + b
  sub := fun a b => a - b
  mul := fun a b => a * b
  div := fun a b => a / b
  leB := fun a b => decide (a ≤ b)
  geB := fun a b => decide (b ≤ a)
  maxF := fun a b => max a b
  minF := fun a b => min a b
  sqrtF := sq
  ofNat := fun n => (n : α)
  ofRat := fun q => (q : α)

/-- Sum of a list of scalars (np.sum / np.mean numerator). -/
def sumListOps {V : Type} (ops : FpOps V) (xs : List V) : V :=
  xs.foldr ops.add ops.zero

/-- np.mean of a vector. -/
def npMean {V : Type} (ops : FpOps V) (xs : List V) : V :=
  ops.div (sumListOps ops xs) (ops.ofNat xs.length)

/-- np.std of a vector (population standard deviation, ddof = 0): the
square root of the mean squared deviation from the mean. -/
def npStd {V : Type} (ops : FpOps V) (xs : List V) : V :=
  let m := npMean ops xs
  ops.sqrtF (npMean ops (xs.map (fun x => ops.mul (ops.sub x m) (ops.sub x m))))

/-- Insertion of one element into a le-sorted list. -/
def insertSorted {V : Type} (le : V → V → Bool) (x : V) : List V → List V
  | [] => [x]
  | y :: ys => if le x y then x :: y :: ys else y :: insertSorted le x ys

/-- Sorting by the boolean comparison le (the sort underlying
np.percentile). -/
def insertionSort {V : Type} (le : V → V → Bool) : List V → List V
  | [] => []
  | x :: xs => insertSorted le x (insertionSort le xs)

/-- np.percentile with the default linear interpolation: sort, take the
virtual index q * (n - 1) / 100, and interpolate between the two
neighbouring order statistics. -/
def npPercentile {V : Type} (ops : FpOps V) (xs : List V) (q : ℚ) : V :=
  let s := insertionSort ops.leB xs
  let n := s.length
  let h : ℚ := q * ((n : ℚ) - 1) / 100
  let i : ℕ := (⌊h⌋ : ℤ).toNat
  let g : ℚ := h - (i : ℚ)
  if g = 0 then s.getD i ops.zero
  else ops.add (s.getD i ops.zero)
    (ops.mul (ops.ofRat g) (ops.sub (s.getD (i + 1) ops.zero) (s.getD i ops.zero)))

/-- One row of the estimates DataFrame consumed by
run_stake_simulations (the columns it reads). -/
structure EstimateRowIn (V : Type) where
  stake_text : String
  mu_bb_per_hand : V
  sigma2_bb_per_hand : V
deriving DecidableEq

/-- The simulation configuration dictionary (the keys read by
run_stake_simulations). -/
structure SimConfig (V : Type) where
  time_horizons : List ℕ
  n_simulations : ℕ
  current_bankroll_bb : V
  drawdown_thresholds : List V
deriving DecidableEq

/-- The per-horizon fields of one stake result row: the dynamically
named columns ror_Hh, final_mean_Hh, final_std_Hh, final_p10_Hh,
final_p90_Hh and dd_Tbb_Hh of the Python dict, grouped by horizon. -/
structure HorizonResult (V : Type) where
  n_hands : ℕ
  ror : V
  final_mean : V
  final_std : V
  final_p10 : V
  final_p90 : V
  dd_probs : List (V × V)
deriving DecidableEq

/-- One output row of run_stake_simulations. -/
structure StakeResult (V : Type) where
  stake_text : String
  mu : V
  sigma : V
  sigma2 : V
  horizon_results : List (HorizonResult V)
deriving DecidableEq

/-- The inner horizon loop of run_stake_simulations: for each configured
horizon, simulate paths, compute risk of ruin (threshold 0), drawdown
probabilities, and the terminal-bankroll statistics of the last column.
The RNG state is threaded through the calls exactly as numpy threads its
global state. -/
def runHorizons {V : Type} (ops : FpOps V) (z : ℕ → ℕ → V) (mu sigma : V)
    (config : SimConfig V) :
    List ℕ → RngState → List (HorizonResult V) × RngState
  | [], st => ([], st)
  | n_hands :: rest, st =>
    let pr := simulate_bankroll_paths ops z mu sigma
      config.current_bankroll_bb n_hands config.n_simulations st
    let paths := pr.1
    let ror := calculate_risk_of_ruin ops paths ops.zero
    let dd := calculate_drawdown_probabilities ops paths
      config.drawdown_thresholds
    let final_bankrolls := paths.map (fun p => p.getD (p.length - 1) ops.zero)
    let hr : HorizonResult V :=
      ⟨n_hands, ror, npMean ops final_bankrolls, npStd ops final_bankrolls,
        npPercentile ops final_bankrolls 10, npPercentile ops final_bankrolls 90,
        dd⟩
    let more := runHorizons ops z mu sigma config rest pr.2
    (hr :: more.1, more.2)

/-- simulate.py, run_stake_simulations: for every row of the estimates
table (with no filtering and no configuration validation of any kind),
set sigma to the square root of the variance column and run the horizon
loop; one result row is appended per estimates row. -/
def run_stake_simulations {V : Type} (ops : FpOps V) (z : ℕ → ℕ → V) :
    List (EstimateRowIn V) → SimConfig V → RngState →
    List (StakeResult V) × RngState
  | [], _, st => ([], st)
  | stake_row :: rest, config, st =>
    let mu := stake_row.mu_bb_per_hand
    let sigma := ops.sqrtF stake_row.sigma2_bb_per_hand
    let hs := runHorizons ops z mu sigma config config.time_horizons st
    let more := run_stake_simulations ops z rest config hs.2
    (⟨stake_row.stake_text, mu, sigma, stake_row.sigma2_bb_per_hand, hs.1⟩
      :: more.1, more.2)

/-- NaN-propagating addition on the Option scalar (none models NaN). -/
def nanAdd : Option ℚ → Option ℚ → Option ℚ
  | some a, some b => some (a + b)
  | _, _ => none

/-- NaN-propagating subtraction. -/
def nanSub : Option ℚ → Option ℚ → Option ℚ
  | some a, some b => some (a - b)
  | _, _ => none

/-- NaN-propagating multiplication. -/
def nanMul : Option ℚ → Option ℚ → Option ℚ
  | some a, some b => some (a * b)
  | _, _ => none

/-- NaN-propagating division (division by zero also yields NaN, standing
for the IEEE nan/inf results that are never finite numbers). -/
def nanDiv : Option ℚ → Option ℚ → Option ℚ
  | some a, some b => if b = 0 then none else some (a / b)
  | _, _ => none

/-- The NaN-modelling instantiation of the operation bundle over
Option-wrapped rationals: none stands for IEEE NaN, every comparison
involving NaN is false, arithmetic on NaN yields NaN, and the square
root of a negative value is NaN.  The rational square-root stand-in is
exact on the perfect squares that appear in this development. -/
def nanOps : FpOps (Option ℚ) where
  zero := some 0
  add := nanAdd
  sub := nanSub
  mul := nanMul
  div := nanDiv
  leB := fun a b => match a, b with
    | some x, some y => decide (x ≤ y)
    | _, _ => false
  geB := fun a b => match a, b with
    | some x, some y => decide (y ≤ x)
    | _, _ => false
  maxF := fun a b => match a, b with
    | some x, some y => some (max x y)
    | _, _ => none
  minF := fun a b => match a, b with
    | some x, some y => some (min x y)
    | _, _ => none
  sqrtF := fun a => match a with
    | some x =>
      if x < 0 then none
      else some ((Nat.sqrt x.num.toNat : ℚ) / (Nat.sqrt x.den : ℚ))
    | none => none
  ofNat := fun n => some (n : ℚ)
  ofRat := fun q => some q

/-- One row of the enriched session DataFrame consumed by
estimate_mu_sigma_by_stake (the columns it reads). -/
structure SessionRow (α : Type) where
  stake_text : String
  bb_per_hand : α
  usd_per_hand : α
  hands_played : ℕ
  hours_played : α
  bb_per_session : α
  net_result : α
  hands_per_hour : α
deriving DecidableEq

/-- One output row of estimate_mu_sigma_by_stake (the dict appended per
included stake). -/
structure EstimateOut (α : Type) where
  stake_text : String
  n_sessions : ℕ
  total_hands : ℕ
  total_hours : α
  avg_session_hours : α
  mu_bb_per_hand : α
  mu_bb_ci_lower : α
  mu_bb_ci_upper : α
  mu_usd_per_hand : α
  mu_usd_ci_lower : α
  mu_usd_ci_upper : α
  sigma2_bb_per_hand : α
  sigma2_usd_per_hand : α
  bb_per_hour : α
  hourly_rate_usd : α
  total_bb_won : α
  total_usd_won : α
deriving DecidableEq

/-- Sum of a list over a field (the pandas Series sum). -/
def listSum {α : Type} [LinearOrderedField α] (xs : List α) : α :=
  xs.foldr (fun a b => a + b) 0

/-- Sum of a list of naturals (the hands_played total). -/
def natListSum (xs : List ℕ) : ℕ := xs.foldr (fun a b => a + b) 0

/-- pandas Series.mean. -/
def pdMean {α : Type} [LinearOrderedField α] (xs : List α) : α :=
  listSum xs / (xs.length : α)

/-- pandas Series.var with the default ddof = 1: the Bessel-corrected
sample variance, sum of squared deviations over n - 1. -/
def pdVar {α : Type} [LinearOrderedField α] (xs : List α) : α :=
  listSum (xs.map (fun x => (x - pdMean xs) ^ 2)) / ((xs.length : α) - 1)

/-- pandas Series.std with ddof = 1: the square root of pdVar, with the
square root passed in as the abstract map sq. -/
def pdStd {α : Type} [LinearOrderedField α] (sq : α → α) (xs : List α) : α :=
  sq (pdVar xs)

/-- pandas Series.unique on the stake column: the distinct values in
first-occurrence order. -/
def uniqueKeys : List String → List String
  | [] => []
  | s :: rest => s :: (uniqueKeys rest).filter (fun t => !(t == s))

/-- The loop body of estimate.py, estimate_mu_sigma_by_stake, for one
stake value: take the rows of that stake, silently skip the stake (no
row, no error) when there are fewer than 3 rows, and otherwise emit one
row of estimates.  sq models the real square root (pandas std and
np.sqrt) and tcrit models scipy stats.t.ppf at probability 0.975 as a
function of the degrees of freedom. -/
def estimateRowForStake {α : Type} [LinearOrderedField α]
    (sq : α → α) (tcrit : ℕ → α) (df : List (SessionRow α))
    (stake : String) : Option (EstimateOut α) :=
    let stake_data := df.filter (fun r => r.stake_text == stake)
    if stake_data.length < 3 then none
    else
      let n_sessions := stake_data.length
      let bb := stake_data.map SessionRow.bb_per_hand
      let usd := stake_data.map SessionRow.usd_per_hand
      let mu_bb_per_hand := pdMean bb
      let mu_usd_per_hand := pdMean usd
      let session_bb_variance := pdVar bb
      let session_usd_variance := pdVar usd
      let t_critical := tcrit (n_sessions - 1)
      let mu_bb_se := pdStd sq bb / sq ((n_sessions : α))
      let mu_usd_se := pdStd sq usd / sq ((n_sessions : α))
      some
        { stake_text := stake
          n_sessions := n_sessions
          total_hands := natListSum (stake_data.map SessionRow.hands_played)
          total_hours := listSum (stake_data.map SessionRow.hours_played)
          avg_session_hours := pdMean (stake_data.map SessionRow.hours_played)
          mu_bb_per_hand := mu_bb_per_hand
          mu_bb_ci_lower := mu_bb_per_hand - t_critical * mu_bb_se
          mu_bb_ci_upper := mu_bb_per_hand + t_critical * mu_bb_se
          mu_usd_per_hand := mu_usd_per_hand
          mu_usd_ci_lower := mu_usd_per_hand - t_critical * mu_usd_se
          mu_usd_ci_upper := mu_usd_per_hand + t_critical * mu_usd_se
          sigma2_bb_per_hand := session_bb_variance
          sigma2_usd_per_hand := session_usd_variance
          bb_per_hour := mu_bb_per_hand *
            pdMean (stake_data.map SessionRow.hands_per_hour)
          hourly_rate_usd := mu_usd_per_hand *
            pdMean (stake_data.map SessionRow.hands_per_hour)
          total_bb_won := listSum (stake_data.map SessionRow.bb_per_session)
          total_usd_won := listSum (stake_data.map SessionRow.net_result) }

/-- estimate.py, estimate_mu_sigma_by_stake: iterate the distinct stakes
in first-occurrence order and collect the emitted estimate rows (the
under-3-sessions stakes contribute nothing). -/
def estimate_mu_sigma_by_stake {α : Type} [LinearOrderedField α]
    (sq : α → α) (tcrit : ℕ → α) (df : List (SessionRow α)) :
    List (EstimateOut α) :=
  (uniqueKeys (df.map SessionRow.stake_text)).filterMap
    (estimateRowForStake sq tcrit df)

/-! Helper lemmas about the embedded numpy primitives. -/

lemma cumsumFrom_length {V : Type} (ops : FpOps V) (acc : V) (xs : List V) :
    (cumsumFrom ops acc xs).length = xs.length := by
  induction xs generalizing acc with
  | nil => rfl
  | cons x xs ih => simp [cumsumFrom, ih]

lemma cumsumFrom_getD {α : Type} [LinearOrderedField α] (sq : α → α)
    (xs : List α) : ∀ (acc : α) (k : ℕ), k < xs.length →
    (cumsumFrom (fieldOps α sq) acc xs).getD k 0 =
      acc + ∑ j ∈ Finset.range (k + 1), xs.getD j 0 := by
  induction xs with
  | nil => intro acc k hk; simp at hk
  | cons x xs ih =>
    intro acc k hk
    cases k with
    | zero => simp [cumsumFrom, fieldOps]
    | succ k =>
      have hk' : k < xs.length := by simpa using hk
      have hsum : ∑ j ∈ Finset.range (k + 2), (x :: xs).getD j 0 =
          x + ∑ j ∈ Finset.range (k + 1), xs.getD j 0 := by
        rw [Finset.sum_range_succ']
        simp [List.getD_cons_succ, List.getD_cons_zero, add_comm]
      calc (cumsumFrom (fieldOps α sq) acc (x :: xs)).getD (k + 1) 0
          = (cumsumFrom (fieldOps α sq) (acc + x) xs).getD k 0 := by
            simp [cumsumFrom, fieldOps]
        _ = (acc + x) + ∑ j ∈ Finset.range (k + 1), xs.getD j 0 := ih (acc + x) k hk'
        _ = acc + ∑ j ∈ Finset.range (k + 2), (x :: xs).getD j 0 := by
            rw [hsum]; ring

lemma simulate_paths_length {α : Type} [LinearOrderedField α] (sq : α → α)
    (z : ℕ → ℕ → α) (mu sigma b0 : α) (H N : ℕ) (st : RngState) :
    ((simulate_bankroll_paths (fieldOps α sq) z mu sigma b0 H N st).1).length
      = N := by
  simp [simulate_bankroll_paths]

lemma simulate_paths_row {α : Type} [LinearOrderedField α] (sq : α → α)
    (z : ℕ → ℕ → α) (mu sigma b0 : α) (H N : ℕ) (st : RngState)
    (i : ℕ) (hi : i < N) :
    ((simulate_bankroll_paths (fieldOps α sq) z mu sigma b0 H N st).1).getD i []
      = b0 :: (cumsum (fieldOps α sq)
          ((List.range H).map (fun j => mu + sigma * z 42 (i * H + j)))).map
          (fun c => b0 + c) := by
  have hlen : i <
      ((simulate_bankroll_paths (fieldOps α sq) z mu sigma b0 H N st).1).length := by
    rw [simulate_paths_length]; exact hi
  rw [List.getD_eq_getElem _ _ hlen]
  simp only [simulate_bankroll_paths, List.map_map, List.getElem_map,
    List.getElem_range, normalAt, npRandomSeed, fieldOps]
  simp

/-- Entry t (for 1 ≤ t ≤ length) of a column-stacked row: the initial
bankroll plus the sum of the first t increments. -/
lemma row_entry {α : Type} [LinearOrderedField α] (sq : α → α)
    (xs : List α) (b0 : α) (t : ℕ) (ht1 : 1 ≤ t) (ht2 : t ≤ xs.length) :
    (b0 :: (cumsum (fieldOps α sq) xs).map (fun c => b0 + c)).getD t 0 =
      b0 + ∑ j ∈ Finset.range t, xs.getD j 0 := by
  obtain ⟨t', rfl⟩ : ∃ t', t = t' + 1 :=
    ⟨t - 1, (Nat.succ_pred_eq_of_pos ht1).symm⟩
  have hxlen : t' < xs.length := Nat.lt_of_succ_le ht2
  have hclen : t' < (cumsum (fieldOps α sq) xs).length := by
    simpa [cumsum, cumsumFrom_length] using hxlen
  have hmlen : t' < ((cumsum (fieldOps α sq) xs).map (fun c => b0 + c)).length := by
    simpa using hclen
  rw [List.getD_cons_succ, List.getD_eq_getElem _ _ hmlen, List.getElem_map,
    ← List.getD_eq_getElem _ 0 hclen, cumsum,
    cumsumFrom_getD sq _ _ t' hxlen]
  simp [fieldOps]

/-- C1: simulate_bankroll_paths returns an array of shape
(n_simulations, n_hands + 1); in every trial row i, entry 0 equals the
initial bankroll and entry t (1 ≤ t ≤ n_hands) equals the initial
bankroll plus the cumulative sum of the first t Normal(mu, sigma)
per-hand increments drawn for that trial (the draws of the seeded
standard-normal stream at positions i * n_hands + j, transformed
affinely by mu and sigma). -/
theorem C1_simulate_shape_and_cumulative_sums {α : Type}
    [LinearOrderedField α] (sq : α → α) (z : ℕ → ℕ → α) (mu sigma b0 : α)
    (H N : ℕ) (st : RngState) (i t : ℕ)
    (hi : i < N) (ht1 : 1 ≤ t) (ht2 : t ≤ H) :
    ((simulate_bankroll_paths (fieldOps α sq) z mu sigma b0 H N st).1).length
        = N ∧
    (((simulate_bankroll_paths (fieldOps α sq) z mu sigma b0 H N st).1).getD
        i []).length = H + 1 ∧
    (((simulate_bankroll_paths (fieldOps α sq) z mu sigma b0 H N st).1).getD
        i []).getD 0 0 = b0 ∧
    (((simulate_bankroll_paths (fieldOps α sq) z mu sigma b0 H N st).1).getD
        i []).getD t 0 =
      b0 + ∑ j ∈ Finset.range t, (mu + sigma * z 42 (i * H + j)) := by
  refine ⟨simulate_paths_length sq z mu sigma b0 H N st, ?_, ?_, ?_⟩ <;>
    rw [simulate_paths_row sq z mu sigma b0 H N st i hi]
  · simp [cumsum, cumsumFrom_length]
  · simp
  · rw [row_entry sq _ b0 t ht1 (by simpa using ht2)]
    congr 1
    refine Finset.sum_congr rfl (fun j hj => ?_)
    have hjH : j < H := lt_of_lt_of_le (Finset.mem_range.mp hj) ht2
    rw [List.getD_eq_getElem _ _ (by simpa using hjH)]
    simp

/-- Zero square-root stand-in used in concrete instantiations where the
square root is never applied to a relevant value. -/
def sqQ0 : ℚ → ℚ := fun _ => 0

/-- A concrete standard-normal stream over the rationals used by the
witnesses. -/
def zQ : ℕ → ℕ → ℚ := fun s k => (s : ℚ) + (k : ℚ)

/-- Witness for C1: the shape and cumulative-sum facts at the concrete
input mu 2, sigma 1, bankroll 10, 3 hands, 2 trials, trial 1, entry 2. -/
theorem C1_witness :
    ((1 < 2 ∧ 1 ≤ 2 ∧ 2 ≤ 3) ∧
    (((simulate_bankroll_paths (fieldOps ℚ sqQ0) zQ 2 1 10 3 2
        ⟨7, 5⟩).1).length = 2 ∧
     (((simulate_bankroll_paths (fieldOps ℚ sqQ0) zQ 2 1 10 3 2
        ⟨7, 5⟩).1).getD 1 []).length = 3 + 1 ∧
     (((simulate_bankroll_paths (fieldOps ℚ sqQ0) zQ 2 1 10 3 2
        ⟨7, 5⟩).1).getD 1 []).getD 0 0 = 10 ∧
     (((simulate_bankroll_paths (fieldOps ℚ sqQ0) zQ 2 1 10 3 2
        ⟨7, 5⟩).1).getD 1 []).getD 2 0 =
       10 + ∑ j ∈ Finset.range 2, (2 + 1 * zQ 42 (1 * 3 + j)))) :=
  ⟨⟨by decide, by decide, by decide⟩,
   C1_simulate_shape_and_cumulative_sums sqQ0 zQ 2 1 10 3 2 ⟨7, 5⟩ 1 2
     (by decide) (by decide) (by decide)⟩

/-- C2: on a non-empty paths array, calculate_risk_of_ruin with
threshold 0 returns exactly the count of trials whose whole-path minimum
(initial entry included) is at most 0, divided by the number of trials,
and the result lies in the interval from 0 to 1. -/
theorem C2_ror_ratio_and_bounds {α : Type} [LinearOrderedField α]
    (sq : α → α) (paths : List (List α)) (hne : paths ≠ []) :
    calculate_risk_of_ruin (fieldOps α sq) paths 0 =
      ((paths.filter
          (fun p => decide (minList (fieldOps α sq) p ≤ 0))).length : α) /
        (paths.length : α) ∧
    0 ≤ calculate_risk_of_ruin (fieldOps α sq) paths 0 ∧
    calculate_risk_of_ruin (fieldOps α sq) paths 0 ≤ 1 := by
  have hform : calculate_risk_of_ruin (fieldOps α sq) paths 0 =
      ((paths.filter
          (fun p => decide (minList (fieldOps α sq) p ≤ 0))).length : α) /
        (paths.length : α) := by
    simp [calculate_risk_of_ruin, fieldOps, List.filter_map, Function.comp_def]
  have hcle : ((paths.filter
      (fun p => decide (minList (fieldOps α sq) p ≤ 0))).length : α) ≤
      (paths.length : α) := by
    exact_mod_cast List.length_filter_le _ paths
  have hnpos : (0 : α) < (paths.length : α) := by
    have : 0 < paths.length := List.length_pos.mpr hne
    exact_mod_cast this
  refine ⟨hform, ?_, ?_⟩
  · rw [hform]
    exact div_nonneg (Nat.cast_nonneg _) (Nat.cast_nonneg _)
  · rw [hform]
    exact (div_le_one hnpos).mpr hcle

/-- Witness for C2 at the concrete array [[1, -1], [2, 3]], whose risk
of ruin is 1/2. -/
theorem C2_witness :
    (([[(1 : ℚ), -1], [2, 3]] : List (List ℚ)) ≠ [] ∧
    (calculate_risk_of_ruin (fieldOps ℚ sqQ0) [[(1 : ℚ), -1], [2, 3]] 0 =
      (([[(1 : ℚ), -1], [2, 3]].filter
          (fun p => decide (minList (fieldOps ℚ sqQ0) p ≤ 0))).length : ℚ) /
        (([[(1 : ℚ), -1], [2, 3]] : List (List ℚ)).length : ℚ) ∧
     0 ≤ calculate_risk_of_ruin (fieldOps ℚ sqQ0) [[(1 : ℚ), -1], [2, 3]] 0 ∧
     calculate_risk_of_ruin (fieldOps ℚ sqQ0) [[(1 : ℚ), -1], [2, 3]] 0 ≤ 1)) :=
  ⟨by decide, C2_ror_ratio_and_bounds sqQ0 [[(1 : ℚ), -1], [2, 3]] (by decide)⟩

/-- C5: the simulator reseeds numpy with the fixed literal 42 on every
call, so two invocations with identical arguments produce identical
paths — and hence identical risk of ruin, drawdown-probability map and
terminal statistics — no matter what random generation happened in
between (that is, whatever ambient RNG states st1 and st2 the two calls
start from). -/
theorem C5_simulate_deterministic {α : Type} [LinearOrderedField α]
    (sq : α → α) (z : ℕ → ℕ → α) (mu sigma b0 : α) (H N : ℕ)
    (st1 st2 : RngState) (ts : List α) :
    (simulate_bankroll_paths (fieldOps α sq) z mu sigma b0 H N st1).1 =
      (simulate_bankroll_paths (fieldOps α sq) z mu sigma b0 H N st2).1 ∧
    calculate_risk_of_ruin (fieldOps α sq)
        (simulate_bankroll_paths (fieldOps α sq) z mu sigma b0 H N st1).1 0 =
      calculate_risk_of_ruin (fieldOps α sq)
        (simulate_bankroll_paths (fieldOps α sq) z mu sigma b0 H N st2).1 0 ∧
    calculate_drawdown_probabilities (fieldOps α sq)
        (simulate_bankroll_paths (fieldOps α sq) z mu sigma b0 H N st1).1 ts =
      calculate_drawdown_probabilities (fieldOps α sq)
        (simulate_bankroll_paths (fieldOps α sq) z mu sigma b0 H N st2).1 ts ∧
    npMean (fieldOps α sq)
        (((simulate_bankroll_paths (fieldOps α sq) z mu sigma b0 H N st1).1).map
          (fun p => p.getD (p.length - 1) (fieldOps α sq).zero)) =
      npMean (fieldOps α sq)
        (((simulate_bankroll_paths (fieldOps α sq) z mu sigma b0 H N st2).1).map
          (fun p => p.getD (p.length - 1) (fieldOps α sq).zero)) ∧
    npStd (fieldOps α sq)
        (((simulate_bankroll_paths (fieldOps α sq) z mu sigma b0 H N st1).1).map
          (fun p => p.getD (p.length - 1) (fieldOps α sq).zero)) =
      npStd (fieldOps α sq)
        (((simulate_bankroll_paths (fieldOps α sq) z mu sigma b0 H N st2).1).map
          (fun p => p.getD (p.length - 1) (fieldOps α sq).zero)) ∧
    npPercentile (fieldOps α sq)
        (((simulate_bankroll_paths (fieldOps α sq) z mu sigma b0 H N st1).1).map
          (fun p => p.getD (p.length - 1) (fieldOps α sq).zero)) 10 =
      npPercentile (fieldOps α sq)
        (((simulate_bankroll_paths (fieldOps α sq) z mu sigma b0 H N st2).1).map
          (fun p => p.getD (p.length - 1) (fieldOps α sq).zero)) 10 ∧
    npPercentile (fieldOps α sq)
        (((simulate_bankroll_paths (fieldOps α sq) z mu sigma b0 H N st1).1).map
          (fun p => p.getD (p.length - 1) (fieldOps α sq).zero)) 90 =
      npPercentile (fieldOps α sq)
        (((simulate_bankroll_paths (fieldOps α sq) z mu sigma b0 H N st2).1).map
          (fun p => p.getD (p.length - 1) (fieldOps α sq).zero)) 90 :=
  ⟨rfl, rfl, rfl, rfl, rfl, rfl, rfl⟩

/-! Lemmas about folded minima and maxima (np.min, np.max along a row). -/

lemma foldl_min_mem {α : Type} [LinearOrder α] :
    ∀ (xs : List α) (acc : α),
      xs.foldl (fun a b => min a b) acc ∈ acc :: xs := by
  intro xs
  induction xs with
  | nil => intro acc; simp
  | cons x xs ih =>
    intro acc
    have h := ih (min acc x)
    rw [List.foldl_cons]
    rcases List.mem_cons.mp h with h1 | h2
    · rcases min_choice acc x with hm | hm
      · exact List.mem_cons.mpr (Or.inl (h1.trans hm))
      · exact List.mem_cons.mpr (Or.inr (List.mem_cons.mpr
          (Or.inl (h1.trans hm))))
    · exact List.mem_cons.mpr (Or.inr (List.mem_cons.mpr (Or.inr h2)))

lemma foldl_min_le {α : Type} [LinearOrder α] :
    ∀ (xs : List α) (acc x : α), x ∈ acc :: xs →
      xs.foldl (fun a b => min a b) acc ≤ x := by
  intro xs
  induction xs with
  | nil =>
    intro acc x hx
    rw [List.mem_singleton] at hx
    subst hx
    exact le_refl _
  | cons y ys ih =>
    intro acc x hx
    rw [List.foldl_cons]
    rcases List.mem_cons.mp hx with h1 | h2
    · rw [h1]
      exact (ih (min acc y) (min acc y) (List.mem_cons_self _ _)).trans
        (min_le_left _ _)
    · rcases List.mem_cons.mp h2 with h3 | h4
      · rw [h3]
        exact (ih (min acc y) (min acc y) (List.mem_cons_self _ _)).trans
          (min_le_right _ _)
      · exact ih (min acc y) x (List.mem_cons.mpr (Or.inr h4))

lemma le_foldl_max {α : Type} [LinearOrder α] :
    ∀ (xs : List α) (acc : α), acc ≤ xs.foldl (fun a b => max a b) acc := by
  intro xs
  induction xs with
  | nil => intro acc; exact le_refl _
  | cons x xs ih =>
    intro acc
    rw [List.foldl_cons]
    exact (le_max_left acc x).trans (ih (max acc x))

lemma minList_pos_of_forall {α : Type} [LinearOrderedField α] (sq : α → α)
    (p : List α) (hne : p ≠ []) (h : ∀ x ∈ p, 0 < x) :
    0 < minList (fieldOps α sq) p := by
  cases p with
  | nil => exact absurd rfl hne
  | cons x xs =>
    have hmem : xs.foldl (fun a b => min a b) x ∈ x :: xs := foldl_min_mem xs x
    have : minList (fieldOps α sq) (x :: xs) ∈ x :: xs := by
      simpa [minList, fieldOps] using hmem
    exact h _ this

lemma minList_le_mem {α : Type} [LinearOrderedField α] (sq : α → α)
    (p : List α) (x : α) (hx : x ∈ p) : minList (fieldOps α sq) p ≤ x := by
  cases p with
  | nil => simp at hx
  | cons y ys =>
    have := foldl_min_le ys y x hx
    simpa [minList, fieldOps] using this

lemma cumsumFrom_mem_nonneg {α : Type} [LinearOrderedField α] (sq : α → α) :
    ∀ (xs : List α) (acc : α), 0 ≤ acc → (∀ v ∈ xs, 0 ≤ v) →
      ∀ c ∈ cumsumFrom (fieldOps α sq) acc xs, 0 ≤ c := by
  intro xs
  induction xs with
  | nil => intro acc _ _ c hc; simp [cumsumFrom] at hc
  | cons x xs ih =>
    intro acc hacc hxs c hc
    have hx : (0 : α) ≤ x := hxs x (List.mem_cons_self _ _)
    have hs : (0 : α) ≤ acc + x := add_nonneg hacc hx
    simp only [cumsumFrom, fieldOps] at hc
    rcases List.mem_cons.mp hc with h1 | h2
    · subst h1; exact hs
    · exact ih (acc + x) hs (fun v hv => hxs v (List.mem_cons.mpr (Or.inr hv)))
        c (by simpa [fieldOps] using h2)

/-- Rows of the simulated paths array, as members of the list. -/
lemma mem_simulate_paths {α : Type} [LinearOrderedField α] (sq : α → α)
    (z : ℕ → ℕ → α) (mu sigma b0 : α) (H N : ℕ) (st : RngState)
    (p : List α)
    (hp : p ∈ (simulate_bankroll_paths (fieldOps α sq) z mu sigma b0 H N st).1) :
    ∃ i < N, p = b0 :: (cumsum (fieldOps α sq)
      ((List.range H).map (fun j => mu + sigma * z 42 (i * H + j)))).map
      (fun c => b0 + c) := by
  obtain ⟨i, hi, hip⟩ := List.mem_iff_getElem.mp hp
  rw [simulate_paths_length] at hi
  refine ⟨i, hi, ?_⟩
  have := simulate_paths_row sq z mu sigma b0 H N st i hi
  rw [List.getD_eq_getElem _ _ (by rw [simulate_paths_length]; exact hi)] at this
  rw [← hip, this]

/-- C6: with sigma equal to 0 and a positive initial bankroll, every
trial collapses to the deterministic path b0 + mu * t (the zero-scale
normal draw contributes nothing), so the risk of ruin computed from the
simulated paths is exactly 0 for positive drift at every horizon, and
exactly 1 for negative drift once the horizon satisfies
b0 + mu * n_hands ≤ 0, with no special-case branch in the code. -/
theorem C6_sigma_zero_ror_zero_or_one {α : Type} [LinearOrderedField α]
    (sq : α → α) (z : ℕ → ℕ → α) (mu b0 : α) (H N : ℕ) (st : RngState)
    (hb0 : 0 < b0) (hN : 1 ≤ N) :
    (0 < mu → calculate_risk_of_ruin (fieldOps α sq)
        (simulate_bankroll_paths (fieldOps α sq) z mu 0 b0 H N st).1 0 = 0) ∧
    (mu < 0 → b0 + mu * (H : α) ≤ 0 → calculate_risk_of_ruin (fieldOps α sq)
        (simulate_bankroll_paths (fieldOps α sq) z mu 0 b0 H N st).1 0 = 1) := by
  constructor
  · intro hmu
    have hrowpos : ∀ p ∈ (simulate_bankroll_paths (fieldOps α sq) z mu 0 b0
        H N st).1, 0 < minList (fieldOps α sq) p := by
      intro p hp
      obtain ⟨i, hi, rfl⟩ := mem_simulate_paths sq z mu 0 b0 H N st p hp
      refine minList_pos_of_forall sq _ (by simp) ?_
      intro x hx
      rcases List.mem_cons.mp hx with h1 | h2
      · rw [h1]; exact hb0
      · obtain ⟨c, hc, rfl⟩ := List.mem_map.mp h2
        have hc0 : (0 : α) ≤ c := by
          refine cumsumFrom_mem_nonneg sq _ ((fieldOps α sq).zero)
            (by simp [fieldOps]) ?_ c hc
          intro v hv
          obtain ⟨j, _, rfl⟩ := List.mem_map.mp hv
          simpa using hmu.le
        exact add_pos_of_pos_of_nonneg hb0 hc0
    have hfilter : ((((simulate_bankroll_paths (fieldOps α sq) z mu 0 b0
        H N st).1).map (minList (fieldOps α sq))).filter
        (fun m => (fieldOps α sq).leB m 0)) = [] := by
      refine List.filter_eq_nil_iff.mpr ?_
      intro m hm
      obtain ⟨p, hp, rfl⟩ := List.mem_map.mp hm
      have := hrowpos p hp
      simp only [fieldOps, decide_eq_true_eq]
      exact not_le.mpr this
    simp only [calculate_risk_of_ruin]
    rw [hfilter]
    simp [fieldOps]
  · intro hmu hruin
    have hH1 : 1 ≤ H := by
      rcases Nat.eq_zero_or_pos H with h0 | h1
      · subst h0
        simp only [Nat.cast_zero, mul_zero, add_zero] at hruin
        exact absurd hruin (not_le.mpr hb0)
      · exact h1
    have hrowle : ∀ p ∈ (simulate_bankroll_paths (fieldOps α sq) z mu 0 b0
        H N st).1, minList (fieldOps α sq) p ≤ 0 := by
      intro p hp
      obtain ⟨i, hi, rfl⟩ := mem_simulate_paths sq z mu 0 b0 H N st p hp
      have hlast : (b0 :: (cumsum (fieldOps α sq)
          ((List.range H).map (fun j => mu + 0 * z 42 (i * H + j)))).map
          (fun c => b0 + c)).getD H 0 = b0 + mu * (H : α) := by
        rw [row_entry sq _ b0 H hH1 (by simp)]
        have hsum : ∑ j ∈ Finset.range H,
            ((List.range H).map (fun j => mu + 0 * z 42 (i * H + j))).getD j 0
            = ∑ _j ∈ Finset.range H, mu := by
          refine Finset.sum_congr rfl (fun j hj => ?_)
          have hjH : j < H := Finset.mem_range.mp hj
          rw [List.getD_eq_getElem _ _ (by simpa using hjH)]
          simp
        rw [hsum, Finset.sum_const, Finset.card_range, nsmul_eq_mul, mul_comm]
      have hlen : H < (b0 :: (cumsum (fieldOps α sq)
          ((List.range H).map (fun j => mu + 0 * z 42 (i * H + j)))).map
          (fun c => b0 + c)).length := by
        simp [cumsum, cumsumFrom_length]
      have hmem : (b0 :: (cumsum (fieldOps α sq)
          ((List.range H).map (fun j => mu + 0 * z 42 (i * H + j)))).map
          (fun c => b0 + c)).getD H 0 ∈
          (b0 :: (cumsum (fieldOps α sq)
          ((List.range H).map (fun j => mu + 0 * z 42 (i * H + j)))).map
          (fun c => b0 + c)) := by
        rw [List.getD_eq_getElem _ _ hlen]
        exact List.getElem_mem _
      have := minList_le_mem sq _ _ hmem
      rw [hlast] at this
      exact this.trans hruin
    have hfilter : ((((simulate_bankroll_paths (fieldOps α sq) z mu 0 b0
        H N st).1).map (minList (fieldOps α sq))).filter
        (fun m => (fieldOps α sq).leB m 0)) =
        (((simulate_bankroll_paths (fieldOps α sq) z mu 0 b0
        H N st).1).map (minList (fieldOps α sq))) := by
      refine List.filter_eq_self.mpr ?_
      intro m hm
      obtain ⟨p, hp, rfl⟩ := List.mem_map.mp hm
      simp only [fieldOps, decide_eq_true_eq]
      exact hrowle p hp
    have hNne : ((N : α)) ≠ 0 := by
      have : N ≠ 0 := by omega
      exact_mod_cast this
    simp only [calculate_risk_of_ruin]
    rw [hfilter, List.length_map, simulate_paths_length]
    simp only [fieldOps]
    exact div_self hNne

/-- Witness for C6 at the concrete input b0 = 10, N = 1. -/
theorem C6_witness :
    ((0 < (10 : ℚ) ∧ 1 ≤ 1) ∧
    ((0 < (2 : ℚ) → calculate_risk_of_ruin (fieldOps ℚ sqQ0)
        (simulate_bankroll_paths (fieldOps ℚ sqQ0) zQ 2 0 10 3 1 ⟨0, 0⟩).1 0 = 0) ∧
     ((2 : ℚ) < 0 → (10 : ℚ) + 2 * ((3 : ℕ) : ℚ) ≤ 0 →
        calculate_risk_of_ruin (fieldOps ℚ sqQ0)
        (simulate_bankroll_paths (fieldOps ℚ sqQ0) zQ 2 0 10 3 1 ⟨0, 0⟩).1 0 = 1))) :=
  ⟨⟨by decide, by decide⟩,
   C6_sigma_zero_ror_zero_or_one sqQ0 zQ 2 10 3 1 ⟨0, 0⟩ (by decide) (by decide)⟩

lemma length_filter_imp {β : Type} (l : List β) (p q : β → Bool)
    (h : ∀ x, p x = true → q x = true) :
    (l.filter p).length ≤ (l.filter q).length := by
  induction l with
  | nil => simp
  | cons x xs ih =>
    by_cases hp : p x = true
    · rw [List.filter_cons_of_pos hp, List.filter_cons_of_pos (h x hp)]
      simpa using ih
    · rw [List.filter_cons_of_neg hp]
      by_cases hq : q x = true
      · rw [List.filter_cons_of_pos hq]
        exact ih.trans (Nat.le_succ _)
      · rw [List.filter_cons_of_neg hq]
        exact ih

/-- C7: within one call of calculate_drawdown_probabilities, the
probability returned for a smaller threshold is at least the probability
returned for a larger one, because both are counted from the same
per-path maximum drawdowns. -/
theorem C7_dd_prob_antitone_in_threshold {α : Type} [LinearOrderedField α]
    (sq : α → α) (paths : List (List α)) (ts : List α) (T1 T2 p1 p2 : α)
    (hlt : T1 < T2)
    (hp1 : (T1, p1) ∈ calculate_drawdown_probabilities (fieldOps α sq) paths ts)
    (hp2 : (T2, p2) ∈ calculate_drawdown_probabilities (fieldOps α sq) paths ts) :
    p2 ≤ p1 := by
  simp only [calculate_drawdown_probabilities] at hp1 hp2
  obtain ⟨T1x, _, heq1⟩ := List.mem_map.mp hp1
  obtain ⟨T2x, _, heq2⟩ := List.mem_map.mp hp2
  simp only [Prod.mk.injEq] at heq1 heq2
  obtain ⟨hT1, hv1⟩ := heq1
  obtain ⟨hT2, hv2⟩ := heq2
  rw [← hv1, ← hv2]
  have hlt2 : T1x < T2x := by rw [hT1, hT2]; exact hlt
  simp only [fieldOps]
  have hcnt : (((paths.map (max_drawdown_of_path (fieldOps α sq))).filter
      (fun d => decide (T2x ≤ d))).length : α) ≤
      (((paths.map (max_drawdown_of_path (fieldOps α sq))).filter
      (fun d => decide (T1x ≤ d))).length : α) := by
    have := length_filter_imp (paths.map (max_drawdown_of_path (fieldOps α sq)))
      (fun d => decide (T2x ≤ d)) (fun d => decide (T1x ≤ d))
      (fun d hd => by
        simp only [decide_eq_true_eq] at hd ⊢
        exact hlt2.le.trans hd)
    exact_mod_cast this
  exact div_le_div_of_nonneg_right hcnt (Nat.cast_nonneg _)

/-- Concrete evaluation of the drawdown probabilities on the array
[[5, 3, 4], [2, 3, 1]] (both maximum drawdowns equal 2). -/
lemma ddProbsOnSmallArray :
    calculate_drawdown_probabilities (fieldOps ℚ sqQ0)
      [[(5 : ℚ), 3, 4], [2, 3, 1]] [1, 3] = [(1, 1), (3, 0)] := by
  norm_num [calculate_drawdown_probabilities, fieldOps, max_drawdown_of_path,
    runningMax, runningMaxFrom, maxList, List.zipWith, List.filter, List.foldl]

/-- Witness for C7 at the concrete paths [[5, 3, 4], [2, 3, 1]] and
thresholds [1, 3], whose returned probabilities are 1 and 0. -/
theorem C7_witness :
    ((1 : ℚ) < 3 ∧
     ((1 : ℚ), (1 : ℚ)) ∈ calculate_drawdown_probabilities (fieldOps ℚ sqQ0)
       [[(5 : ℚ), 3, 4], [2, 3, 1]] [1, 3] ∧
     ((3 : ℚ), (0 : ℚ)) ∈ calculate_drawdown_probabilities (fieldOps ℚ sqQ0)
       [[(5 : ℚ), 3, 4], [2, 3, 1]] [1, 3]) ∧
    (0 : ℚ) ≤ 1 :=
  ⟨⟨by norm_num,
    by rw [ddProbsOnSmallArray]; exact List.mem_cons_self _ _,
    by rw [ddProbsOnSmallArray]
       exact List.mem_cons.mpr (Or.inr (List.mem_singleton.mpr rfl))⟩,
   C7_dd_prob_antitone_in_threshold sqQ0 [[(5 : ℚ), 3, 4], [2, 3, 1]] [1, 3]
     1 3 1 0 (by norm_num)
     (by rw [ddProbsOnSmallArray]; exact List.mem_cons_self _ _)
     (by rw [ddProbsOnSmallArray]
         exact List.mem_cons.mpr (Or.inr (List.mem_singleton.mpr rfl)))⟩

/-- C10: for paths produced by simulate_bankroll_paths with at least one
trial, each path carries a maximum drawdown of at least 0 (the drawdown
at the initial entry is exactly 0), so calculate_drawdown_probabilities
returns probability exactly 1 for every threshold at or below 0. -/
theorem C10_dd_prob_one_for_nonpos_threshold {α : Type}
    [LinearOrderedField α] (sq : α → α) (z : ℕ → ℕ → α)
    (mu sigma b0 : α) (H N : ℕ) (st : RngState) (T : α) (ts : List α)
    (hN : 1 ≤ N) (hT : T ≤ 0) (hmem : T ∈ ts) :
    (T, (1 : α)) ∈ calculate_drawdown_probabilities (fieldOps α sq)
      (simulate_bankroll_paths (fieldOps α sq) z mu sigma b0 H N st).1 ts := by
  have hdd : ∀ p ∈ (simulate_bankroll_paths (fieldOps α sq) z mu sigma b0
      H N st).1, (0 : α) ≤ max_drawdown_of_path (fieldOps α sq) p := by
    intro p hp
    obtain ⟨i, hi, rfl⟩ := mem_simulate_paths sq z mu sigma b0 H N st p hp
    simp only [max_drawdown_of_path, runningMax, List.zipWith_cons_cons,
      maxList]
    have hsub : (fieldOps α sq).sub b0 b0 = 0 := by simp [fieldOps]
    rw [hsub]
    have := le_foldl_max (List.zipWith (fieldOps α sq).sub
      (runningMaxFrom (fieldOps α sq) b0
        ((cumsum (fieldOps α sq)
          ((List.range H).map (fun j => mu + sigma * z 42 (i * H + j)))).map
          (fun c => b0 + c)))
      ((cumsum (fieldOps α sq)
          ((List.range H).map (fun j => mu + sigma * z 42 (i * H + j)))).map
          (fun c => b0 + c))) (0 : α)
    simpa [fieldOps] using this
  have hfilter : (((simulate_bankroll_paths (fieldOps α sq) z mu sigma b0
      H N st).1).map (max_drawdown_of_path (fieldOps α sq))).filter
      (fun d => (fieldOps α sq).geB d T) =
      ((simulate_bankroll_paths (fieldOps α sq) z mu sigma b0
      H N st).1).map (max_drawdown_of_path (fieldOps α sq)) := by
    refine List.filter_eq_self.mpr ?_
    intro d hd
    obtain ⟨p, hp, rfl⟩ := List.mem_map.mp hd
    simp only [fieldOps, decide_eq_true_eq]
    exact hT.trans (hdd p hp)
  have hNne : ((N : α)) ≠ 0 := by
    have : N ≠ 0 := by omega
    exact_mod_cast this
  simp only [calculate_drawdown_probabilities]
  refine List.mem_map.mpr ⟨T, hmem, ?_⟩
  rw [hfilter, List.length_map, simulate_paths_length]
  simp only [fieldOps]
  rw [div_self hNne]

/-- Witness for C10 at a concrete simulated array with threshold 0. -/
theorem C10_witness :
    (1 ≤ 2 ∧ (0 : ℚ) ≤ 0 ∧ (0 : ℚ) ∈ [(0 : ℚ), 5]) ∧
    ((0 : ℚ), (1 : ℚ)) ∈ calculate_drawdown_probabilities (fieldOps ℚ sqQ0)
      (simulate_bankroll_paths (fieldOps ℚ sqQ0) zQ 2 1 10 3 2 ⟨7, 5⟩).1
      [(0 : ℚ), 5] :=
  ⟨⟨by decide, by norm_num, List.mem_cons_self _ _⟩,
   C10_dd_prob_one_for_nonpos_threshold sqQ0 zQ 2 1 10 3 2 ⟨7, 5⟩ 0 [0, 5]
     (by decide) (by norm_num) (List.mem_cons_self _ _)⟩

/-- C8 (amended): run_stake_simulations iterates over every row of the
estimates table with no filtering whatsoever, so it emits exactly one
result row per input row — in the same order and with the same stake
labels — regardless of whether the mean or variance of the row is NaN or
missing.  Invalid rows are not excluded; their NaN propagates into the
metrics of the produced row instead. -/
theorem C8_one_output_row_per_input_row {V : Type} (ops : FpOps V)
    (z : ℕ → ℕ → V) (estimates : List (EstimateRowIn V))
    (config : SimConfig V) (st : RngState) :
    ((run_stake_simulations ops z estimates config st).1).map
        StakeResult.stake_text =
      estimates.map EstimateRowIn.stake_text := by
  induction estimates generalizing st with
  | nil => rfl
  | cons stake_row rest ih =>
    simp only [run_stake_simulations, List.map_cons, List.map]
    exact congrArg (List.cons stake_row.stake_text) (ih _)

/-- Counterexample to C8 as stated: a one-row estimates table whose mean
and variance are both NaN (modelled by none) still produces an output
row for its stake — the row is not excluded from the output. -/
theorem C8_counterexample :
    (((run_stake_simulations nanOps (fun _ _ => some 0)
        [⟨"2-5", none, none⟩] ⟨[1], 1, some 100, [some 0]⟩ ⟨0, 0⟩).1).map
        StakeResult.stake_text) = ["2-5"] := rfl

/-- The keys of the drawdown-probability map are exactly the configured
thresholds, in order, with no filtering or domain check. -/
lemma dd_keys {V : Type} (ops : FpOps V) (paths : List (List V))
    (ts : List V) :
    (calculate_drawdown_probabilities ops paths ts).map Prod.fst = ts := by
  simp [calculate_drawdown_probabilities, List.map_map, Function.comp_def]

lemma mem_runHorizons_dd {V : Type} (ops : FpOps V) (z : ℕ → ℕ → V)
    (mu sigma : V) (config : SimConfig V) :
    ∀ (hs : List ℕ) (st : RngState) (h : HorizonResult V),
      h ∈ (runHorizons ops z mu sigma config hs st).1 →
      ∃ paths, h.dd_probs =
        calculate_drawdown_probabilities ops paths config.drawdown_thresholds := by
  intro hs
  induction hs with
  | nil => intro st h hh; simp [runHorizons] at hh
  | cons H rest ih =>
    intro st h hh
    simp only [runHorizons] at hh
    rcases List.mem_cons.mp hh with h1 | h2
    · exact ⟨(simulate_bankroll_paths ops z mu sigma
        config.current_bankroll_bb H config.n_simulations st).1, by rw [h1]⟩
    · exact ih _ h h2

lemma mem_run_rows {V : Type} (ops : FpOps V) (z : ℕ → ℕ → V) :
    ∀ (estimates : List (EstimateRowIn V)) (config : SimConfig V)
      (st : RngState) (r : StakeResult V),
      r ∈ (run_stake_simulations ops z estimates config st).1 →
      ∃ st', r.horizon_results =
        (runHorizons ops z r.mu r.sigma config config.time_horizons st').1 := by
  intro estimates
  induction estimates with
  | nil => intro config st r hr; simp [run_stake_simulations] at hr
  | cons stake_row rest ih =>
    intro config st r hr
    simp only [run_stake_simulations] at hr
    rcases List.mem_cons.mp hr with h1 | h2
    · exact ⟨st, by rw [h1]⟩
    · exact ih config _ r h2

/-- C9 (amended): run_stake_simulations performs no validation of the
configuration: an out-of-domain value such as a negative drawdown
threshold is consumed exactly as given, simulation results are produced
from it, and every produced horizon result carries one probability
entry per configured threshold rather than a descriptive error raised
before the simulation work. -/
theorem C9_no_config_validation {V : Type} (ops : FpOps V)
    (z : ℕ → ℕ → V) (estimates : List (EstimateRowIn V))
    (config : SimConfig V) (st : RngState) (r : StakeResult V)
    (hr : r ∈ (run_stake_simulations ops z estimates config st).1)
    (h : HorizonResult V) (hh : h ∈ r.horizon_results) :
    h.dd_probs.map Prod.fst = config.drawdown_thresholds := by
  obtain ⟨st', hrows⟩ := mem_run_rows ops z estimates config st r hr
  rw [hrows] at hh
  obtain ⟨paths, hdd⟩ :=
    mem_runHorizons_dd ops z r.mu r.sigma config config.time_horizons st' h hh
  rw [hdd, dd_keys]

/-- Concrete evaluation of the orchestrator on a configuration carrying
the out-of-domain drawdown threshold -5: the call runs to completion and
returns a complete result row whose drawdown entry at -5 has
probability 1. -/
lemma runEvalNegativeThreshold :
    (run_stake_simulations (fieldOps ℚ sqQ0) zQ [⟨"1-2", 0, 0⟩]
        ⟨[1], 1, 100, [-5]⟩ ⟨0, 0⟩).1 =
      [⟨"1-2", 0, 0, 0, [⟨1, 0, 100, 0, 100, 100, [(-5, 1)]⟩]⟩] := by
  norm_num [run_stake_simulations, runHorizons, simulate_bankroll_paths,
    normalAt, npRandomSeed, cumsum, cumsumFrom, calculate_risk_of_ruin,
    minList, calculate_drawdown_probabilities, max_drawdown_of_path,
    runningMax, runningMaxFrom, maxList, npMean, npStd, sumListOps,
    npPercentile, insertionSort, insertSorted, fieldOps, sqQ0, zQ,
    List.filter, List.foldl, List.zipWith, List.range_succ]

/-- Counterexample to C9 as stated: a configuration with the negative
(out-of-domain) drawdown threshold -5 does not make
run_stake_simulations fail fast with an error; the function performs the
simulation and produces results from the invalid configuration. -/
theorem C9_counterexample :
    (run_stake_simulations (fieldOps ℚ sqQ0) zQ [⟨"1-2", 0, 0⟩]
        ⟨[1], 1, 100, [-5]⟩ ⟨0, 0⟩).1 =
      [⟨"1-2", 0, 0, 0, [⟨1, 0, 100, 0, 100, 100, [(-5, 1)]⟩]⟩] :=
  runEvalNegativeThreshold

/-- Witness for C9 (amended) at the concrete invalid configuration. -/
theorem C9_witness :
    ((⟨"1-2", 0, 0, 0, [⟨1, 0, 100, 0, 100, 100, [(-5, 1)]⟩]⟩ : StakeResult ℚ) ∈
        (run_stake_simulations (fieldOps ℚ sqQ0) zQ [⟨"1-2", 0, 0⟩]
          ⟨[1], 1, 100, [-5]⟩ ⟨0, 0⟩).1 ∧
     (⟨1, 0, 100, 0, 100, 100, [(-5, 1)]⟩ : HorizonResult ℚ) ∈
        [(⟨1, 0, 100, 0, 100, 100, [((-5 : ℚ), (1 : ℚ))]⟩ : HorizonResult ℚ)]) ∧
    ([((-5 : ℚ), (1 : ℚ))].map Prod.fst = [(-5 : ℚ)]) :=
  ⟨⟨by rw [runEvalNegativeThreshold]; exact List.mem_cons_self _ _,
    List.mem_cons_self _ _⟩,
   C9_no_config_validation (fieldOps ℚ sqQ0) zQ [⟨"1-2", 0, 0⟩]
     ⟨[1], 1, 100, [-5]⟩ ⟨0, 0⟩
     ⟨"1-2", 0, 0, 0, [⟨1, 0, 100, 0, 100, 100, [(-5, 1)]⟩]⟩
     (by rw [runEvalNegativeThreshold]; exact List.mem_cons_self _ _)
     ⟨1, 0, 100, 0, 100, 100, [(-5, 1)]⟩
     (List.mem_cons_self _ _)⟩

lemma mem_uniqueKeys : ∀ (l : List String) (s : String),
    s ∈ uniqueKeys l ↔ s ∈ l := by
  intro l
  induction l with
  | nil => intro s; simp [uniqueKeys]
  | cons a l ih =>
    intro s
    simp only [uniqueKeys, List.mem_cons, List.mem_filter]
    constructor
    · rintro (rfl | ⟨hs, _⟩)
      · exact Or.inl rfl
      · exact Or.inr ((ih s).mp hs)
    · rintro (rfl | hs)
      · exact Or.inl rfl
      · by_cases heq : s = a
        · exact Or.inl heq
        · exact Or.inr ⟨(ih s).mpr hs, by simp [heq]⟩

lemma uniqueKeys_nodup : ∀ l : List String, (uniqueKeys l).Nodup := by
  intro l
  induction l with
  | nil => simp [uniqueKeys]
  | cons a l ih =>
    simp only [uniqueKeys]
    refine List.nodup_cons.mpr ⟨?_, List.Nodup.filter _ ih⟩
    intro ha
    have := (List.mem_filter.mp ha).2
    simp at this

/-- Counting rows of a filterMap over distinct keys, when the produced
row always carries its key: a key yields exactly one row when its
production succeeds and none otherwise. -/
lemma filterMap_count_by_key {β : Type} (f : String → Option β)
    (key : β → String) (hkey : ∀ k r, f k = some r → key r = k) :
    ∀ (keys : List String), keys.Nodup → ∀ s : String,
      ((keys.filterMap f).filter (fun r => key r == s)).length =
        if s ∈ keys ∧ (f s).isSome then 1 else 0 := by
  intro keys
  induction keys with
  | nil => intro _ s; simp
  | cons k ks ih =>
    intro hnd s
    have hnd2 : ks.Nodup := (List.nodup_cons.mp hnd).2
    have hknotin : k ∉ ks := (List.nodup_cons.mp hnd).1
    rw [List.filterMap_cons]
    cases hf : f k with
    | none =>
      rw [ih hnd2 s]
      by_cases hsk : s = k
      · subst hsk
        simp [hf, hknotin]
      · simp [List.mem_cons, hsk]
    | some r =>
      have hkr : key r = k := hkey k r hf
      rw [List.filter_cons]
      by_cases hsk : s = k
      · subst hsk
        rw [if_pos (by simp [hkr]), List.length_cons, ih hnd2 s]
        rw [if_neg (fun hc => hknotin hc.1), if_pos ⟨List.mem_cons_self _ _,
          by rw [hf]; rfl⟩]
      · rw [if_neg (by simp [hkr, Ne.symm hsk]), ih hnd2 s]
        by_cases hins : s ∈ ks ∧ (f s).isSome
        · rw [if_pos hins, if_pos ⟨List.mem_cons.mpr (Or.inr hins.1), hins.2⟩]
        · rw [if_neg hins, if_neg (fun hc => hins
            ⟨(List.mem_cons.mp hc.1).resolve_left hsk, hc.2⟩)]

/-- C4: in the output of estimate_mu_sigma_by_stake, a stake whose session
group has fewer than 3 rows contributes no row (silent exclusion, no
error channel exists in the function), while a stake with 3 or more rows
contributes exactly one row. -/
theorem C4_under_three_sessions_excluded {α : Type} [LinearOrderedField α]
    (sq : α → α) (tcrit : ℕ → α) (df : List (SessionRow α)) (s : String) :
    ((estimate_mu_sigma_by_stake sq tcrit df).filter
        (fun r => r.stake_text == s)).length =
      if 3 ≤ (df.filter (fun r => r.stake_text == s)).length then 1 else 0 := by
  have hkey : ∀ k r, estimateRowForStake sq tcrit df k = some r →
      r.stake_text = k := by
    intro k r hf
    rw [estimateRowForStake] at hf
    by_cases hlt : (df.filter (fun x => x.stake_text == k)).length < 3
    · rw [if_pos hlt] at hf; exact absurd hf (by simp)
    · rw [if_neg hlt] at hf
      have := Option.some.inj hf
      rw [← this]
  rw [estimate_mu_sigma_by_stake,
    filterMap_count_by_key (estimateRowForStake sq tcrit df)
      EstimateOut.stake_text hkey _ (uniqueKeys_nodup _) s]
  by_cases h3 : 3 ≤ (df.filter (fun r => r.stake_text == s)).length
  · rw [if_pos h3, if_pos]
    constructor
    · have hlen : 0 < (df.filter (fun r => r.stake_text == s)).length := by
        omega
      obtain ⟨r, hr⟩ := List.exists_mem_of_length_pos hlen
      have hmem := List.mem_filter.mp hr
      refine (mem_uniqueKeys _ s).mpr ?_
      refine List.mem_map.mpr ⟨r, hmem.1, ?_⟩
      simpa using hmem.2
    · rw [estimateRowForStake, if_neg (by omega)]
      rfl
  · rw [if_neg h3, if_neg]
    rintro ⟨_, hsome⟩
    rw [estimateRowForStake, if_pos (by omega)] at hsome
    simp at hsome

lemma listSum_const {α : Type} [LinearOrderedField α] :
    ∀ (l : List α) (c : α), (∀ x ∈ l, x = c) →
      listSum l = (l.length : α) * c := by
  intro l
  induction l with
  | nil => intro c _; simp [listSum]
  | cons x xs ih =>
    intro c h
    have hx : x = c := h x (List.mem_cons_self _ _)
    have hs := ih c (fun y hy => h y (List.mem_cons.mpr (Or.inr hy)))
    have hstep : listSum (x :: xs) = x + listSum xs := rfl
    rw [hstep, hx, hs, List.length_cons]
    push_cast
    ring

lemma pdMean_const {α : Type} [LinearOrderedField α] (l : List α) (c : α)
    (hne : l.length ≠ 0) (h : ∀ x ∈ l, x = c) : pdMean l = c := by
  rw [pdMean, listSum_const l c h]
  have hcast : (l.length : α) ≠ 0 := Nat.cast_ne_zero.mpr hne
  field_simp

lemma pdVar_const {α : Type} [LinearOrderedField α] (l : List α) (c : α)
    (hne : l.length ≠ 0) (h : ∀ x ∈ l, x = c) : pdVar l = 0 := by
  rw [pdVar]
  have hmap : ∀ y ∈ l.map (fun x => (x - pdMean l) ^ 2), y = 0 := by
    intro y hy
    obtain ⟨x, hx, rfl⟩ := List.mem_map.mp hy
    rw [h x hx, pdMean_const l c hne h]
    simp
  rw [listSum_const _ 0 hmap]
  simp

/-- C3: every stake group with at least 3 sessions yields a row whose
mean is the arithmetic mean, whose variance is the Bessel-corrected
sample variance, and whose 95 percent confidence interval is the mean
plus or minus the df = n - 1 critical value times the sample standard
deviation over the square root of n, for both the bb and usd series;
when all bb samples in the group are identical the variance is 0 and
both interval bounds collapse onto the mean. -/
theorem C3_estimator_moments_and_ci (tcrit : ℕ → ℝ)
    (df : List (SessionRow ℝ)) (s : String)
    (h3 : 3 ≤ (df.filter (fun r => r.stake_text == s)).length) :
    ∃ row ∈ estimate_mu_sigma_by_stake Real.sqrt tcrit df,
      row.stake_text = s ∧
      row.n_sessions = (df.filter (fun r => r.stake_text == s)).length ∧
      row.mu_bb_per_hand = pdMean ((df.filter (fun r => r.stake_text == s)).map
        SessionRow.bb_per_hand) ∧
      row.sigma2_bb_per_hand = pdVar ((df.filter (fun r => r.stake_text == s)).map
        SessionRow.bb_per_hand) ∧
      row.mu_bb_ci_lower = pdMean ((df.filter (fun r => r.stake_text == s)).map
          SessionRow.bb_per_hand) -
        tcrit ((df.filter (fun r => r.stake_text == s)).length - 1) *
        (Real.sqrt (pdVar ((df.filter (fun r => r.stake_text == s)).map
          SessionRow.bb_per_hand)) /
         Real.sqrt (((df.filter (fun r => r.stake_text == s)).length : ℝ))) ∧
      row.mu_bb_ci_upper = pdMean ((df.filter (fun r => r.stake_text == s)).map
          SessionRow.bb_per_hand) +
        tcrit ((df.filter (fun r => r.stake_text == s)).length - 1) *
        (Real.sqrt (pdVar ((df.filter (fun r => r.stake_text == s)).map
          SessionRow.bb_per_hand)) /
         Real.sqrt (((df.filter (fun r => r.stake_text == s)).length : ℝ))) ∧
      row.mu_usd_per_hand = pdMean ((df.filter (fun r => r.stake_text == s)).map
        SessionRow.usd_per_hand) ∧
      row.sigma2_usd_per_hand = pdVar ((df.filter (fun r => r.stake_text == s)).map
        SessionRow.usd_per_hand) ∧
      row.mu_usd_ci_lower = pdMean ((df.filter (fun r => r.stake_text == s)).map
          SessionRow.usd_per_hand) -
        tcrit ((df.filter (fun r => r.stake_text == s)).length - 1) *
        (Real.sqrt (pdVar ((df.filter (fun r => r.stake_text == s)).map
          SessionRow.usd_per_hand)) /
         Real.sqrt (((df.filter (fun r => r.stake_text == s)).length : ℝ))) ∧
      row.mu_usd_ci_upper = pdMean ((df.filter (fun r => r.stake_text == s)).map
          SessionRow.usd_per_hand) +
        tcrit ((df.filter (fun r => r.stake_text == s)).length - 1) *
        (Real.sqrt (pdVar ((df.filter (fun r => r.stake_text == s)).map
          SessionRow.usd_per_hand)) /
         Real.sqrt (((df.filter (fun r => r.stake_text == s)).length : ℝ))) ∧
      (∀ c : ℝ, (∀ x ∈ (df.filter (fun r => r.stake_text == s)).map
          SessionRow.bb_per_hand, x = c) →
        row.sigma2_bb_per_hand = 0 ∧
        row.mu_bb_ci_lower = row.mu_bb_per_hand ∧
        row.mu_bb_ci_upper = row.mu_bb_per_hand) := by
  have hsmem : s ∈ uniqueKeys (df.map SessionRow.stake_text) := by
    have hlen : 0 < (df.filter (fun r => r.stake_text == s)).length := by omega
    obtain ⟨r, hr⟩ := List.exists_mem_of_length_pos hlen
    have hmem := List.mem_filter.mp hr
    refine (mem_uniqueKeys _ s).mpr ?_
    refine List.mem_map.mpr ⟨r, hmem.1, ?_⟩
    simpa using hmem.2
  cases hfs : estimateRowForStake Real.sqrt tcrit df s with
  | none =>
    exfalso
    simp only [estimateRowForStake] at hfs
    rw [if_neg (by omega)] at hfs
    exact absurd hfs (by simp)
  | some row =>
    refine ⟨row, List.mem_filterMap.mpr ⟨s, hsmem, hfs⟩, ?_⟩
    simp only [estimateRowForStake] at hfs
    rw [if_neg (by omega)] at hfs
    have hrow := Option.some.inj hfs
    subst hrow
    refine ⟨rfl, rfl, rfl, rfl, rfl, rfl, rfl, rfl, rfl, rfl, ?_⟩
    intro c hc
    have hbblen : (((df.filter (fun r => r.stake_text == s)).map
        SessionRow.bb_per_hand)).length ≠ 0 := by
      simp only [List.length_map]; omega
    have hvar := pdVar_const _ c hbblen hc
    refine ⟨hvar, ?_, ?_⟩
    · show pdMean ((df.filter (fun r => r.stake_text == s)).map
          SessionRow.bb_per_hand) -
        tcrit ((df.filter (fun r => r.stake_text == s)).length - 1) *
        (pdStd Real.sqrt ((df.filter (fun r => r.stake_text == s)).map
          SessionRow.bb_per_hand) /
         Real.sqrt (((df.filter (fun r => r.stake_text == s)).length : ℝ))) =
        pdMean ((df.filter (fun r => r.stake_text == s)).map
          SessionRow.bb_per_hand)
      rw [pdStd, hvar, Real.sqrt_zero, zero_div, mul_zero, sub_zero]
    · show pdMean ((df.filter (fun r => r.stake_text == s)).map
          SessionRow.bb_per_hand) +
        tcrit ((df.filter (fun r => r.stake_text == s)).length - 1) *
        (pdStd Real.sqrt ((df.filter (fun r => r.stake_text == s)).map
          SessionRow.bb_per_hand) /
         Real.sqrt (((df.filter (fun r => r.stake_text == s)).length : ℝ))) =
        pdMean ((df.filter (fun r => r.stake_text == s)).map
          SessionRow.bb_per_hand)
      rw [pdStd, hvar, Real.sqrt_zero, zero_div, mul_zero, add_zero]

/-- A concrete enriched-session row used by the C3 witness. -/
def rowA : SessionRow ℝ := ⟨"2-5", 1, 2, 100, 3, 4, 5, 6⟩

/-- A three-session single-stake table used by the C3 witness. -/
def dfW3 : List (SessionRow ℝ) := [rowA, rowA, rowA]

/-- A concrete critical-value function used by the C3 witness. -/
def tcW : ℕ → ℝ := fun _ => 2

/-- Witness for C3 at a concrete three-session table. -/
theorem C3_witness :
    (3 ≤ (dfW3.filter (fun r => r.stake_text == "2-5")).length) ∧
    (∃ row ∈ estimate_mu_sigma_by_stake Real.sqrt tcW dfW3,
      row.stake_text = "2-5" ∧
      row.n_sessions = (dfW3.filter (fun r => r.stake_text == "2-5")).length ∧
      row.mu_bb_per_hand = pdMean ((dfW3.filter (fun r => r.stake_text == "2-5")).map
        SessionRow.bb_per_hand) ∧
      row.sigma2_bb_per_hand = pdVar ((dfW3.filter (fun r => r.stake_text == "2-5")).map
        SessionRow.bb_per_hand) ∧
      row.mu_bb_ci_lower = pdMean ((dfW3.filter (fun r => r.stake_text == "2-5")).map
          SessionRow.bb_per_hand) -
        tcW ((dfW3.filter (fun r => r.stake_text == "2-5")).length - 1) *
        (Real.sqrt (pdVar ((dfW3.filter (fun r => r.stake_text == "2-5")).map
          SessionRow.bb_per_hand)) /
         Real.sqrt (((dfW3.filter (fun r => r.stake_text == "2-5")).length : ℝ))) ∧
      row.mu_bb_ci_upper = pdMean ((dfW3.filter (fun r => r.stake_text == "2-5")).map
          SessionRow.bb_per_hand) +
        tcW ((dfW3.filter (fun r => r.stake_text == "2-5")).length - 1) *
        (Real.sqrt (pdVar ((dfW3.filter (fun r => r.stake_text == "2-5")).map
          SessionRow.bb_per_hand)) /
         Real.sqrt (((dfW3.filter (fun r => r.stake_text == "2-5")).length : ℝ))) ∧
      row.mu_usd_per_hand = pdMean ((dfW3.filter (fun r => r.stake_text == "2-5")).map
        SessionRow.usd_per_hand) ∧
      row.sigma2_usd_per_hand = pdVar ((dfW3.filter (fun r => r.stake_text == "2-5")).map
        SessionRow.usd_per_hand) ∧
      row.mu_usd_ci_lower = pdMean ((dfW3.filter (fun r => r.stake_text == "2-5")).map
          SessionRow.usd_per_hand) -
        tcW ((dfW3.filter (fun r => r.stake_text == "2-5")).length - 1) *
        (Real.sqrt (pdVar ((dfW3.filter (fun r => r.stake_text == "2-5")).map
          SessionRow.usd_per_hand)) /
         Real.sqrt (((dfW3.filter (fun r => r.stake_text == "2-5")).length : ℝ))) ∧
      row.mu_usd_ci_upper = pdMean ((dfW3.filter (fun r => r.stake_text == "2-5")).map
          SessionRow.usd_per_hand) +
        tcW ((dfW3.filter (fun r => r.stake_text == "2-5")).length - 1) *
        (Real.sqrt (pdVar ((dfW3.filter (fun r => r.stake_text == "2-5")).map
          SessionRow.usd_per_hand)) /
         Real.sqrt (((dfW3.filter (fun r => r.stake_text == "2-5")).length : ℝ))) ∧
      (∀ c : ℝ, (∀ x ∈ (dfW3.filter (fun r => r.stake_text == "2-5")).map
          SessionRow.bb_per_hand, x = c) →
        row.sigma2_bb_per_hand = 0 ∧
        row.mu_bb_ci_lower = row.mu_bb_per_hand ∧
        row.mu_bb_ci_upper = row.mu_bb_per_hand)) :=
  ⟨by simp [dfW3, rowA], C3_estimator_moments_and_ci tcW dfW3 "2-5"
    (by simp [dfW3, rowA])⟩

end PokerBankroll

